import Mathlib

/-!
Verification of the subword vocabulary pipeline of this repository
(`BPE_preprocess.py` and `BPEPreprocess.py`) against its specification.

Text is modelled as `List Char`.  Python whitespace handling (`re.sub("\s+", " ")`,
`str.strip()`, `str.split()`), the vocabulary filter, the vocabulary-listing parser,
the binarizer driver `make_binary_dataset`, and the dictionary-lifecycle event traces
of both `main` functions are embedded below; the `seq2seq` `Dictionary` itself is not
part of the sources, so its operations used here (`lookup`, `binarize`) are modelled
from the specification and marked as such.
-/

namespace BPEPre

/-- Python whitespace (`\s` of `re`, `str.strip`, `str.split`), restricted to the
six ASCII whitespace characters; the Unicode extension is irrelevant to the claims. -/
def isPySpace (c : Char) : Bool :=
  c == ' ' || c == '\t' || c == '\n' || c == '\r' || c == '\x0b' || c == '\x0c'

/-- Embedding of `re.sub("\s+", " ", line)` (`word_tokenize`, `BPE_preprocess.py` lines 59-63 and
`BPEPreprocess.py` lines 62-66): each maximal run of whitespace becomes one `' '`.
The flag records whether the previous character was part of a whitespace run whose
single output space has already been emitted. -/
def subNormAux : Bool → List Char → List Char
  | _, [] => []
  | inRun, c :: cs =>
    if isPySpace c then
      if inRun then subNormAux true cs else ' ' :: subNormAux true cs
    else c :: subNormAux false cs

/-- Embedding of `re.sub("\s+", " ", line)`. -/
def subNorm (l : List Char) : List Char := subNormAux false l

/-- Python `str.strip()`: drop leading and trailing whitespace. -/
def pyStrip (l : List Char) : List Char :=
  ((l.dropWhile isPySpace).reverse.dropWhile isPySpace).reverse

/-- Python `str.split()` with no separator argument, via an accumulator holding the
(reversed) token currently being assembled. -/
def pySplitAux : List Char → List Char → List (List Char)
  | acc, [] => if acc.isEmpty then [] else [acc.reverse]
  | acc, c :: cs =>
    if isPySpace c then
      if acc.isEmpty then pySplitAux [] cs else acc.reverse :: pySplitAux [] cs
    else pySplitAux (c :: acc) cs

/-- Python `str.split()` with no separator argument. -/
def pySplit (l : List Char) : List (List Char) := pySplitAux [] l

/-- Embedding of `word_tokenize` (`BPE_preprocess.py` lines 59-63, `BPEPreprocess.py` lines 62-66):
normalize whitespace runs to a single space, strip, split. -/
def word_tokenize (l : List Char) : List (List Char) :=
  pySplit (pyStrip (subNorm l))

/-- The specification's tokenization rule stated independently of the implementation:
split the line on the whitespace separator and discard the empty pieces (collapsing
runs and trimming ends is exactly discarding empty pieces). -/
def tokensSpec (l : List Char) : List (List Char) :=
  (l.splitOnP isPySpace).filter (fun t => !t.isEmpty)

theorem modifyHead_fun_id (L : List (List Char)) :
    L.modifyHead (fun x => x) = L := by
  cases L <;> simp

theorem pySplitAux_eq (l : List Char) : ∀ acc,
    pySplitAux acc l =
      ((l.splitOnP isPySpace).modifyHead (acc.reverse ++ ·)).filter (fun t => !t.isEmpty) := by
  induction l with
  | nil =>
    intro acc
    cases acc with
    | nil => simp [pySplitAux, List.splitOnP_nil]
    | cons a as => simp [pySplitAux, List.splitOnP_nil]
  | cons c cs ih =>
    intro acc
    by_cases hc : isPySpace c
    · have hsplit : (c :: cs).splitOnP isPySpace = [] :: cs.splitOnP isPySpace := by
        simp [List.splitOnP_cons, hc]
      rw [hsplit]
      cases acc with
      | nil =>
        simp only [pySplitAux, hc, if_pos rfl, List.isEmpty_nil, if_true]
        rw [ih []]
        simp only [List.reverse_nil]
        rw [List.modifyHead_cons]
        simp only [List.nil_append]
        rw [List.filter_cons]
        simp [modifyHead_fun_id]
      | cons a as =>
        simp only [pySplitAux, hc, if_pos rfl]
        rw [ih []]
        simp only [List.reverse_nil]
        rw [List.modifyHead_cons]
        simp only [List.nil_append]
        rw [List.filter_cons]
        simp [modifyHead_fun_id]
    · have hsplit : (c :: cs).splitOnP isPySpace =
          (cs.splitOnP isPySpace).modifyHead (List.cons c) := by
        simp [List.splitOnP_cons, hc]
      rw [hsplit]
      simp only [pySplitAux, hc, if_neg, Bool.false_eq_true, not_false_iff, if_false]
      rw [ih (c :: acc)]
      rw [List.modifyHead_modifyHead]
      congr 1
      congr 1
      funext x
      simp

theorem pySplit_eq_tokensSpec (l : List Char) : pySplit l = tokensSpec l := by
  rw [pySplit, pySplitAux_eq l [], tokensSpec]
  congr 1
  have : (fun x => ([] : List Char).reverse ++ x) = id := by funext x; simp
  rw [this, List.modifyHead_id, id]


theorem pySplitAux_allspace : ∀ (ss : List Char), (∀ c ∈ ss, isPySpace c) →
    ∀ acc, pySplitAux acc ss = if acc.isEmpty then [] else [acc.reverse] := by
  intro ss
  induction ss with
  | nil => intro _ acc; rfl
  | cons c cs ih =>
    intro h acc
    have hc : isPySpace c := h c (List.mem_cons_self c cs)
    simp only [pySplitAux, hc, if_true]
    rw [ih (fun x hx => h x (List.mem_cons_of_mem c hx)) []]
    cases acc <;> simp

theorem pySplitAux_append_allspace (ss : List Char) (h : ∀ c ∈ ss, isPySpace c) :
    ∀ (l acc : List Char), pySplitAux acc (l ++ ss) = pySplitAux acc l := by
  intro l
  induction l with
  | nil =>
    intro acc
    rw [List.nil_append, pySplitAux_allspace ss h acc]
    simp [pySplitAux]
  | cons c cs ih =>
    intro acc
    rw [List.cons_append]
    simp only [pySplitAux, ih]

theorem pySplit_allspace_append : ∀ (ss : List Char), (∀ c ∈ ss, isPySpace c) →
    ∀ (l : List Char), pySplitAux [] (ss ++ l) = pySplitAux [] l := by
  intro ss
  induction ss with
  | nil => intro _ l; rw [List.nil_append]
  | cons c cs ih =>
    intro h l
    have hc : isPySpace c := h c (List.mem_cons_self c cs)
    rw [List.cons_append]
    simp only [pySplitAux, hc, if_true, List.isEmpty_nil]
    exact ih (fun x hx => h x (List.mem_cons_of_mem c hx)) l

theorem pySplit_pyStrip (l : List Char) : pySplit (pyStrip l) = pySplit l := by
  have h1 : pySplitAux [] l = pySplitAux [] (l.dropWhile isPySpace) := by
    conv_lhs => rw [← List.takeWhile_append_dropWhile isPySpace l]
    exact pySplit_allspace_append _ (fun c hc => List.mem_takeWhile_imp hc) _
  have hdecomp : l.dropWhile isPySpace =
      pyStrip l ++ ((l.dropWhile isPySpace).reverse.takeWhile isPySpace).reverse := by
    conv_lhs => rw [← List.reverse_reverse (l.dropWhile isPySpace)]
    conv_lhs =>
      rw [← List.takeWhile_append_dropWhile isPySpace (l.dropWhile isPySpace).reverse]
    rw [List.reverse_append]
    rfl
  have hss : ∀ c ∈ ((l.dropWhile isPySpace).reverse.takeWhile isPySpace).reverse,
      isPySpace c := by
    intro c hc
    rw [List.mem_reverse] at hc
    exact List.mem_takeWhile_imp hc
  show pySplitAux [] (pyStrip l) = pySplitAux [] l
  rw [h1, hdecomp, pySplitAux_append_allspace _ hss _ _]

theorem subNormAux_split (l : List Char) :
    (∀ acc, pySplitAux acc (subNormAux false l) = pySplitAux acc l) ∧
    (pySplitAux [] (subNormAux true l) = pySplitAux [] l) := by
  induction l with
  | nil => exact ⟨fun _ => rfl, rfl⟩
  | cons c cs ih =>
    obtain ⟨ih1, ih2⟩ := ih
    have hsp : isPySpace ' ' = true := rfl
    constructor
    · intro acc
      by_cases hc : isPySpace c
      · simp only [subNormAux, hc, if_true]
        simp only [Bool.false_eq_true, if_false]
        simp only [pySplitAux, hsp, hc, if_true]
        simp only [ih2]
      · simp only [subNormAux, hc, Bool.false_eq_true, if_false]
        simp only [pySplitAux, hc, Bool.false_eq_true, if_false]
        exact ih1 (c :: acc)
    · by_cases hc : isPySpace c
      · simp only [subNormAux, hc, if_true]
        rw [ih2]
        simp [pySplitAux, hc]
      · simp only [subNormAux, hc, Bool.false_eq_true, if_false]
        simp only [pySplitAux, hc, Bool.false_eq_true, if_false]
        exact ih1 [c]

theorem word_tokenize_eq_tokensSpec (l : List Char) : word_tokenize l = tokensSpec l := by
  rw [word_tokenize, pySplit_pyStrip (subNorm l), ← pySplit_eq_tokensSpec l]
  show pySplitAux [] (subNormAux false l) = pySplitAux [] l
  exact (subNormAux_split l).1 []

/-! ### Vocabulary Filter (`apply_bpe_with_vocab_filter`, `BPE_preprocess.py` lines 66-85) -/

/-- The literal low-frequency sentinel written by the filter
(`BPE_preprocess.py` line 84). -/
def lowfreqSentinel : List Char := ['@', '@', 'U', 'N', 'K', 'N', 'O', 'W', 'N', '@', '@']

/-- Python `vocab.get(word, 0)` over the loaded frequency table, modelled as
first-match lookup on an association list whose newest binding sits at the head. -/
def dictGet (vocab : List (List Char × Int)) (w : List Char) : Int :=
  match vocab with
  | [] => 0
  | (k, v) :: rest => if k = w then v else dictGet rest w

/-- Python `word in vocab` for the same association-list model. -/
def hasKey (vocab : List (List Char × Int)) (w : List Char) : Bool :=
  match vocab with
  | [] => false
  | (k, _) :: rest => if k = w then true else hasKey rest w

/-- Per-token body of the filter loop (`BPE_preprocess.py` lines 81-84):
`word if vocab.get(word, 0) >= threshold else the sentinel`. -/
def filterWord (vocab : List (List Char × Int)) (threshold : Int) (w : List Char) :
    List Char :=
  if dictGet vocab w ≥ threshold then w else lowfreqSentinel

/-- Per-line filtering (`BPE_preprocess.py` lines 79-85) over the whitespace tokens
of the segmented line. -/
def apply_bpe_with_vocab_filter_line (vocab : List (List Char × Int)) (threshold : Int)
    (toks : List (List Char)) : List (List Char) :=
  toks.map (filterWord vocab threshold)

/-! ### Vocabulary-listing parser (`apply_bpe_with_vocab_filter`, lines 68-72) -/

def isAsciiDigit (c : Char) : Bool := '0' ≤ c && c ≤ '9'

/-- Digit string to value (callers guard non-emptiness and digit-ness). -/
def digitsVal (s : List Char) : Nat :=
  s.foldl (fun acc c => acc * 10 + (c.toNat - 48)) 0

/-- Digits with no sign: `none` unless a non-empty all-ASCII-digit string. -/
def pyIntDigits (s : List Char) : Option Nat :=
  if s.isEmpty || !s.all isAsciiDigit then none else some (digitsVal s)

/-- Python `int(s)` restricted to an optional ASCII sign followed by ASCII digits.
The tokens fed to it come from `str.split()`, so they contain no whitespace;
underscore grouping and non-ASCII digits are not modelled. -/
def pyInt (s : List Char) : Option Int :=
  match s with
  | '+' :: rest => (pyIntDigits rest).map (fun n => (n : Int))
  | '-' :: rest => (pyIntDigits rest).map (fun n => -(n : Int))
  | _ => (pyIntDigits s).map (fun n => (n : Int))

/-- The `ValueError` message raised by `word, freq = parts` with fewer than two parts;
this is the whole payload of the exception. -/
def notEnoughValuesMsg (k : Nat) : List Char :=
  "not enough values to unpack (expected 2, got ".data ++ (Nat.repr k).data ++ ")".data

/-- The `ValueError` message raised by `word, freq = parts` with more than two parts. -/
def tooManyValuesMsg : List Char :=
  "too many values to unpack (expected 2)".data

/-- The `ValueError` message raised by `int(freq)` on a non-integer token (the quotes
Python puts around the token are omitted). -/
def invalidIntMsg (tok : List Char) : List Char :=
  "invalid literal for int() with base 10: ".data ++ tok

/-- One iteration of the vocabulary-loading loop (`BPE_preprocess.py` lines 70-72):
`word, freq = line.strip().split()` then `int(freq)`.  The error value is the
`ValueError` message alone: the offending file path and line number are not part of
what the code raises. -/
def parseVocabLine (line : List Char) : Except (List Char) (List Char × Int) :=
  match pySplit (pyStrip line) with
  | [w, f] =>
    match pyInt f with
    | some n => Except.ok (w, n)
    | none => Except.error (invalidIntMsg f)
  | parts =>
    Except.error
      (if parts.length < 2 then notEnoughValuesMsg parts.length else tooManyValuesMsg)

/-- The vocabulary-loading loop (`BPE_preprocess.py` lines 68-72).  Python dict
assignment overwrites, so newer bindings are consed to the front and `dictGet` takes
the first match. -/
def load_vocab_aux (acc : List (List Char × Int)) :
    List (List Char) → Except (List Char) (List (List Char × Int))
  | [] => Except.ok acc
  | l :: ls =>
    match parseVocabLine l with
    | Except.error m => Except.error m
    | Except.ok e => load_vocab_aux (e :: acc) ls

/-- Loading a vocabulary listing given as a list of lines. -/
def load_vocab (lines : List (List Char)) : Except (List Char) (List (List Char × Int)) :=
  load_vocab_aux [] lines

/-- A vocabulary-listing line is malformed when it does not split into exactly two
fields, or its second field is not an integer. -/
def malformedLine (line : List Char) : Bool :=
  match pySplit (pyStrip line) with
  | [_, f] => (pyInt f).isNone
  | _ => true

/-- Brute-force substring test on character lists. -/
def containsSub (needle hay : List Char) : Bool :=
  (List.range (hay.length + 1)).any (fun i => (hay.drop i).take needle.length == needle)

/-! ### The Vocabulary Dictionary (modelled from the spec) and the Binarizer -/

/-- Index of a symbol in the dictionary's ordered symbol list. -/
def symIndex (syms : List (List Char)) (w : List Char) : Option Nat :=
  match syms with
  | [] => none
  | s :: rest => if s = w then some 0 else (symIndex rest w).map (· + 1)

/-- Modelled from the spec: `seq2seq.data.dictionary.Dictionary` is not part of the
sources.  Spec §3/§4.2 describe an ordered symbol list whose index is the integer id,
with reserved special symbols, among them the unknown symbol with surface form
`unk_word` at fixed id `unk_idx`, and an end-of-sequence symbol at id `eos_idx`. -/
structure Dictionary where
  symbols : List (List Char)
  unk_word : List Char
  unk_idx : Nat
  eos_idx : Nat

/-- Modelled from the spec (§4.2): `lookup(symbol) -> id` returns the unknown-symbol
id if the symbol is absent, otherwise the symbol's index. -/
def Dictionary.lookup (d : Dictionary) (w : List Char) : Nat :=
  (symIndex d.symbols w).getD d.unk_idx

/-- Embedding of `unk_consumer` (`BPE_preprocess.py` lines 92-94, `BPEPreprocess.py` lines 72-74):
the UNK Substitution Statistics counter is the multiset of recorded surface forms,
updated exactly when the resolved id is the unknown id and the surface form is not
the literal unknown symbol. -/
def unk_consumer (d : Dictionary) (counter : List (List Char)) (word : List Char)
    (idx : Nat) : List (List Char) :=
  if idx = d.unk_idx ∧ word ≠ d.unk_word then word :: counter else counter

/-- The consumer fold over one line's tokens. -/
def unkFold (d : Dictionary) (toks : List (List Char)) (c : List (List Char)) :
    List (List Char) :=
  toks.foldl (fun c w => unk_consumer d c w (d.lookup w)) c

/-- Modelled from the spec (§4.4): `Dictionary.binarize` tokenizes with the shared
rule, looks each token up, optionally appends the end-of-sequence id, and feeds every
(token, resolved id) pair to the consumer.  The dictionary is read-only during
binarization (§5) and is returned unchanged as the post-call state. -/
def Dictionary.binarize (d : Dictionary) (line : List Char) (append_eos : Bool)
    (c : List (List Char)) : (List Nat × List (List Char)) × Dictionary :=
  (((word_tokenize line).map d.lookup ++ (if append_eos then [d.eos_idx] else []),
    unkFold d (word_tokenize line) c), d)

/-- Number of occurrences of `w` recorded in a counter. -/
def occCount (w : List Char) (c : List (List Char)) : Nat :=
  c.countP (fun x => x == w)

/-- Running state of `make_binary_dataset` (`BPE_preprocess.py` lines 88-108):
the accumulated `tokens_list`, `nsent`, `ntok`, the UNK counter, and the dictionary
threaded through `binarize`. -/
structure BinResult where
  tokens_list : List (List Nat)
  nsent : Nat
  ntok : Nat
  counter : List (List Char)
  dict : Dictionary

/-- One loop iteration of `make_binary_dataset` (lines 98-101): binarize
`line.strip()`, append the ids, bump the sentence and token counts. -/
def binStep (append_eos : Bool) (st : BinResult) (line : List Char) : BinResult :=
  let r := st.dict.binarize (pyStrip line) append_eos st.counter
  { tokens_list := st.tokens_list ++ [r.1.1]
    nsent := st.nsent + 1
    ntok := st.ntok + r.1.1.length
    counter := r.1.2
    dict := r.2 }

/-- Embedding of `make_binary_dataset` (`BPE_preprocess.py` lines 88-104, `BPEPreprocess.py`
lines 68-84): binarize every input line in order against the dictionary. -/
def make_binary_dataset (d : Dictionary) (append_eos : Bool)
    (lines : List (List Char)) : BinResult :=
  lines.foldl (binStep append_eos) ⟨[], 0, 0, [], d⟩

/-- The diagnostic summary of `make_binary_dataset` (lines 105-108): sentence count,
token count, and `100.0 * sum(unk_counter.values()) / ntok`.  Python raises
`ZeroDivisionError` when `ntok` is zero, modelled as `none`. -/
def summary (st : BinResult) : Option (Nat × Nat × ℚ) :=
  if st.ntok = 0 then none
  else some (st.nsent, st.ntok, 100 * (st.counter.length : ℚ) / (st.ntok : ℚ))

/-- The ids `make_binary_dataset` produces for one input line. -/
def idsOfLine (d : Dictionary) (append_eos : Bool) (line : List Char) : List Nat :=
  (word_tokenize (pyStrip line)).map d.lookup ++ (if append_eos then [d.eos_idx] else [])

/-! ### The binarized-dataset container (spec §6) -/

/-- Modelled from the spec: the source persists `tokens_list` with `pickle.dump`
(line 104), an external serializer.  §6 allows any container that round-trips
exactly; modelled as length-prefixed framed records over naturals. -/
def encodeSeq (xs : List Nat) : List Nat := xs.length :: xs

/-- The on-disk container: record count, then each record length-prefixed. -/
def encodeDataset (xss : List (List Nat)) : List Nat :=
  xss.length :: (xss.map encodeSeq).flatten

/-- Read `n` integers from the stream. -/
def readN : Nat → List Nat → Option (List Nat × List Nat)
  | 0, rest => some ([], rest)
  | _ + 1, [] => none
  | n + 1, x :: rest => (readN n rest).map (fun p => (x :: p.1, p.2))

/-- Read `k` length-prefixed records from the stream. -/
def readSeqs : Nat → List Nat → Option (List (List Nat) × List Nat)
  | 0, rest => some ([], rest)
  | _ + 1, [] => none
  | k + 1, len :: rest =>
    match readN len rest with
    | none => none
    | some (xs, r) =>
      match readSeqs k r with
      | none => none
      | some (xss, r2) => some (xs :: xss, r2)

/-- Decode a full container, requiring the stream to be consumed exactly. -/
def decodeDataset (stream : List Nat) : Option (List (List Nat)) :=
  match stream with
  | [] => none
  | k :: rest =>
    match readSeqs k rest with
    | none => none
    | some (xss, r) => if r.isEmpty then some xss else none

/-! ### Dictionary-lifecycle traces of the two `main` functions -/

/-- The dictionary-affecting operations performed by the two pipeline `main`s. -/
inductive Event
  | add_word (w : List Char)
  | finalize
  | save
  | binarize_split (split : Nat)
deriving DecidableEq

def isFinalizeEv : Event → Bool
  | Event.finalize => true
  | _ => false

def isAddWordEv : Event → Bool
  | Event.add_word _ => true
  | _ => false

def isBinarizeEv : Event → Bool
  | Event.binarize_split _ => true
  | _ => false

/-- Embedding of `build_bpe_dictionary` (`BPE_preprocess.py` lines 51-57, `BPEPreprocess.py`
lines 53-59): one `add_word` per whitespace token of each line of the training
file. -/
def build_bpe_dictionary_events (trainLines : List (List Char)) : List Event :=
  (trainLines.map (fun l => (pySplit (pyStrip l)).map Event.add_word)).flatten

/-- The four splits both `main`s binarize (train, valid, test, tiny_train). -/
def splitEvents : List Event :=
  [Event.binarize_split 0, Event.binarize_split 1, Event.binarize_split 2,
   Event.binarize_split 3]

/-- Per-language dictionary-lifecycle trace of `BPE_preprocess.py` `main`, step 5
(lines 157-174): build the dictionary from the training split, finalize, save, then
binarize the four splits. -/
def main_dict_trace_BPE_preprocess (trainLines : List (List Char)) : List Event :=
  build_bpe_dictionary_events trainLines ++ Event.finalize :: Event.save :: splitEvents

/-- Per-language dictionary-lifecycle trace of `BPEPreprocess.py` `main`
(lines 124-133): build the dictionary, save it, then binarize the four splits —
`finalize` is never called in this pipeline. -/
def main_dict_trace_BPEPreprocess (trainLines : List (List Char)) : List Event :=
  build_bpe_dictionary_events trainLines ++ Event.save :: splitEvents

/-- The lifecycle discipline the claim asserts of a trace: the trace decomposes
around a `finalize` event such that no other `finalize` occurs anywhere, no
`add_word` occurs after it, and no binarization occurs before it. -/
def finalizeDiscipline (t : List Event) : Prop :=
  ∃ pre post, t = pre ++ Event.finalize :: post ∧
    pre.countP isFinalizeEv = 0 ∧ post.countP isFinalizeEv = 0 ∧
    post.countP isAddWordEv = 0 ∧ pre.countP isBinarizeEv = 0

/-! ### Concrete data shared by witnesses -/

/-- A small concrete dictionary: pad, unk, eos specials, then one real symbol. -/
def sampleDict : Dictionary :=
  ⟨[['<', 'p', 'a', 'd', '>'], ['<', 'u', 'n', 'k', '>'], ['<', '/', 's', '>'], ['a']],
   ['<', 'u', 'n', 'k', '>'], 1, 2⟩

/-- An initial binarizer state over `sampleDict`. -/
def sampleState : BinResult := ⟨[], 0, 0, [], sampleDict⟩

/-! ### Helper lemmas -/

theorem parseVocabLine_error_of_malformed (line : List Char)
    (h : malformedLine line = true) : ∃ m, parseVocabLine line = Except.error m := by
  unfold malformedLine at h
  cases hs : pySplit (pyStrip line) with
  | nil =>
    refine ⟨notEnoughValuesMsg 0, ?_⟩
    simp [parseVocabLine, hs]
  | cons a t =>
    cases t with
    | nil =>
      refine ⟨notEnoughValuesMsg 1, ?_⟩
      simp [parseVocabLine, hs]
    | cons b t2 =>
      cases t2 with
      | nil =>
        rw [hs] at h
        simp only [Option.isNone_iff_eq_none] at h
        refine ⟨invalidIntMsg b, ?_⟩
        simp [parseVocabLine, hs, h]
      | cons e t3 =>
        refine ⟨tooManyValuesMsg, ?_⟩
        simp [parseVocabLine, hs]

theorem load_vocab_aux_error :
    ∀ (lines : List (List Char)) (acc : List (List Char × Int)),
      (∃ l ∈ lines, malformedLine l = true) →
      ∃ m, load_vocab_aux acc lines = Except.error m := by
  intro lines
  induction lines with
  | nil => intro acc h; simp at h
  | cons l ls ih =>
    intro acc h
    cases hp : parseVocabLine l with
    | error m => exact ⟨m, by simp [load_vocab_aux, hp]⟩
    | ok e =>
      have hl : malformedLine l = false := by
        by_contra hcon
        obtain ⟨m, hm⟩ :=
          parseVocabLine_error_of_malformed l (by simpa using hcon)
        rw [hp] at hm
        exact Except.noConfusion hm
      obtain ⟨l', hl', hmal⟩ := h
      rcases List.mem_cons.mp hl' with h1 | h2
      · subst h1; rw [hl] at hmal; exact absurd hmal (by simp)
      · obtain ⟨m, hm⟩ := ih (e :: acc) ⟨l', h2, hmal⟩
        exact ⟨m, by simp [load_vocab_aux, hp, hm]⟩

theorem dictGet_nonneg (vocab : List (List Char × Int))
    (h : ∀ p ∈ vocab, 0 ≤ p.2) (w : List Char) : 0 ≤ dictGet vocab w := by
  induction vocab with
  | nil => simp [dictGet]
  | cons p rest ih =>
    obtain ⟨k, v⟩ := p
    unfold dictGet
    by_cases hk : k = w
    · rw [if_pos hk]
      exact h (k, v) (List.mem_cons_self _ _)
    · rw [if_neg hk]
      exact ih (fun q hq => h q (List.mem_cons_of_mem _ hq))

theorem dictGet_of_not_hasKey (vocab : List (List Char × Int)) (w : List Char)
    (h : hasKey vocab w = false) : dictGet vocab w = 0 := by
  induction vocab with
  | nil => simp [dictGet]
  | cons p rest ih =>
    obtain ⟨k, v⟩ := p
    unfold hasKey at h
    unfold dictGet
    by_cases hk : k = w
    · rw [if_pos hk] at h; simp at h
    · rw [if_neg hk] at h
      rw [if_neg hk]
      exact ih h

theorem unkFold_count (d : Dictionary) (w : List Char) :
    ∀ (toks : List (List Char)) (c : List (List Char)),
      occCount w (unkFold d toks c) =
        occCount w c +
          toks.countP (fun t => decide (d.lookup t = d.unk_idx ∧ t ≠ d.unk_word ∧ t = w)) := by
  intro toks
  induction toks with
  | nil => intro c; simp [unkFold, occCount]
  | cons t ts ih =>
    intro c
    have hstep : unkFold d (t :: ts) c = unkFold d ts (unk_consumer d c t (d.lookup t)) := rfl
    rw [hstep, ih, List.countP_cons]
    unfold unk_consumer
    by_cases h1 : d.lookup t = d.unk_idx ∧ t ≠ d.unk_word
    · rw [if_pos h1]
      by_cases h2 : t = w
      · subst h2
        simp only [occCount, List.countP_cons, h1.1, h1.2, beq_self_eq_true]
        simp [h1.1, h1.2]
        omega
      · have : (t == w) = false := by simp [h2]
        simp only [occCount, List.countP_cons, this]
        simp [h2]
    · rw [if_neg h1]
      have : ¬(d.lookup t = d.unk_idx ∧ t ≠ d.unk_word ∧ t = w) := by
        intro hcon
        exact h1 ⟨hcon.1, hcon.2.1⟩
      simp [this]

theorem foldl_binStep_spec (ae : Bool) :
    ∀ (lines : List (List Char)) (init : BinResult),
      (lines.foldl (binStep ae) init).tokens_list =
          init.tokens_list ++ lines.map (idsOfLine init.dict ae) ∧
        (lines.foldl (binStep ae) init).dict = init.dict := by
  intro lines
  induction lines with
  | nil => intro init; simp
  | cons l ls ih =>
    intro init
    have h1 : (binStep ae init l).dict = init.dict := rfl
    have h2 : (binStep ae init l).tokens_list =
        init.tokens_list ++ [idsOfLine init.dict ae l] := rfl
    constructor
    · show (ls.foldl (binStep ae) (binStep ae init l)).tokens_list = _
      rw [(ih (binStep ae init l)).1, h2, h1]
      simp
    · show (ls.foldl (binStep ae) (binStep ae init l)).dict = _
      rw [(ih _).2, h1]

theorem readN_encode (xs : List Nat) : ∀ r : List Nat, readN xs.length (xs ++ r) = some (xs, r) := by
  induction xs with
  | nil => intro r; rfl
  | cons x xs ih =>
    intro r
    show (readN xs.length (xs ++ r)).map _ = _
    rw [ih r]
    rfl

theorem readSeqs_encode (xss : List (List Nat)) :
    ∀ r : List Nat, readSeqs xss.length ((xss.map encodeSeq).flatten ++ r) = some (xss, r) := by
  induction xss with
  | nil => intro r; rfl
  | cons xs xss ih =>
    intro r
    show readSeqs (xss.length + 1) ((encodeSeq xs ++ (xss.map encodeSeq).flatten) ++ r) = _
    rw [List.append_assoc]
    show (match readN xs.length (xs ++ ((xss.map encodeSeq).flatten ++ r)) with
      | none => none
      | some (ys, rest) =>
        match readSeqs xss.length rest with
        | none => none
        | some (yss, r2) => some (ys :: yss, r2)) = _
    rw [readN_encode xs ((xss.map encodeSeq).flatten ++ r)]
    show (match readSeqs xss.length ((xss.map encodeSeq).flatten ++ r) with
      | none => none
      | some (yss, r2) => some (xs :: yss, r2)) = some (xs :: xss, r)
    rw [ih r]

theorem decode_encode (xss : List (List Nat)) :
    decodeDataset (encodeDataset xss) = some xss := by
  show (match readSeqs xss.length (xss.map encodeSeq).flatten with
    | none => none
    | some (yss, r) => if r.isEmpty then some yss else none) = _
  have h := readSeqs_encode xss []
  rw [List.append_nil] at h
  rw [h]
  rfl

theorem build_events_all_add (trainLines : List (List Char)) :
    ∀ e ∈ build_bpe_dictionary_events trainLines, isAddWordEv e = true := by
  intro e he
  unfold build_bpe_dictionary_events at he
  simp only [List.mem_flatten, List.mem_map] at he
  obtain ⟨L, ⟨l, _, rfl⟩, heL⟩ := he
  simp only [List.mem_map] at heL
  obtain ⟨w, _, rfl⟩ := heL
  rfl

/-! ### Claim theorems -/

/-- C1 (counterexample): the claim fails on a `BPEPreprocess.py` pipeline run with a
one-token training corpus: its dictionary trace contains no `finalize` event at all,
so no decomposition witnessing the claimed once-and-ordered discipline exists. -/
theorem C1_finalize_counterexample :
    ¬ finalizeDiscipline (main_dict_trace_BPEPreprocess [['a']]) := by
  rintro ⟨pre, post, heq, -, -, -, -⟩
  have hmem : Event.finalize ∈ main_dict_trace_BPEPreprocess [['a']] := by
    rw [heq]
    exact List.mem_append_right _ (List.mem_cons_self _ _)
  revert hmem
  decide

/-- C1 (amended): in the `BPE_preprocess.py` pipeline, the per-language dictionary
trace calls `finalize` exactly once, after every `add_word` of the owning training
corpus and before every binarization; the sibling `BPEPreprocess.py` pipeline never
calls `finalize`. -/
theorem C1_finalize_discipline (trainLines : List (List Char)) :
    finalizeDiscipline (main_dict_trace_BPE_preprocess trainLines) := by
  refine ⟨build_bpe_dictionary_events trainLines, Event.save :: splitEvents, rfl, ?_,
    by decide, by decide, ?_⟩
  · rw [List.countP_eq_zero]
    intro e he
    have h := build_events_all_add trainLines e he
    cases e <;> simp_all [isAddWordEv, isFinalizeEv]
  · rw [List.countP_eq_zero]
    intro e he
    have h := build_events_all_add trainLines e he
    cases e <;> simp_all [isAddWordEv, isBinarizeEv]

/-- C2 (code bug): on a zero-token input — an empty file, or a single all-whitespace
line with `append_eos` unset — the diagnostic summary of `make_binary_dataset`
divides by `ntok = 0`, i.e. Python raises `ZeroDivisionError` (modelled `none`)
instead of emitting the summary. -/
theorem C2_zero_token_summary_fails :
    summary (make_binary_dataset sampleDict true []) = none ∧
      summary (make_binary_dataset sampleDict false [[' ']]) = none :=
  ⟨rfl, rfl⟩

/-- C3 (counterexample): loading the vocabulary listing with lines "a 1", "b 2",
"xyz" from path "vocab.en" fails on line 3, but the raised `ValueError` carries
neither the path "vocab.en" nor the line number 3. -/
theorem C3_no_path_in_error :
    load_vocab [['a', ' ', '1'], ['b', ' ', '2'], ['x', 'y', 'z']] =
        Except.error (notEnoughValuesMsg 1) ∧
      containsSub ['v', 'o', 'c', 'a', 'b', '.', 'e', 'n'] (notEnoughValuesMsg 1) = false ∧
      containsSub ['3'] (notEnoughValuesMsg 1) = false :=
  ⟨rfl, by decide, by decide⟩

/-- C3 (amended): a malformed vocabulary-listing line (wrong field count or
non-integer frequency) makes vocabulary loading fail with a fatal parse error, but
the error value is the `ValueError` message alone, without the offending line's file
path or line number. -/
theorem C3_malformed_is_fatal (lines : List (List Char))
    (h : ∃ l ∈ lines, malformedLine l = true) :
    ∃ m, load_vocab lines = Except.error m :=
  load_vocab_aux_error lines [] h

theorem C3_malformed_is_fatal_witness :
    (∃ l ∈ [['x']], malformedLine l = true) ∧
      ∃ m, load_vocab [['x']] = Except.error m :=
  ⟨by decide, C3_malformed_is_fatal [['x']] (by decide)⟩

/-- C4: the Vocabulary Filter maps tokens pointwise: it preserves token count and
order, keeps the i-th token when its recorded frequency reaches the threshold, and
replaces it by the single literal sentinel otherwise; concretely, with table
{x:5, y:1} and threshold 2, the tokens of "x y x" become x, the sentinel, x. -/
theorem C4_filter_pointwise :
    (∀ (vocab : List (List Char × Int)) (th : Int) (toks : List (List Char)),
      (apply_bpe_with_vocab_filter_line vocab th toks).length = toks.length ∧
      ∀ i : Nat, (apply_bpe_with_vocab_filter_line vocab th toks)[i]? =
        (toks[i]?).map (fun w => if dictGet vocab w ≥ th then w else lowfreqSentinel)) ∧
    apply_bpe_with_vocab_filter_line [(['x'], 5), (['y'], 1)] 2 [['x'], ['y'], ['x']] =
      [['x'], lowfreqSentinel, ['x']] := by
  constructor
  · intro vocab th toks
    refine ⟨by simp [apply_bpe_with_vocab_filter_line], ?_⟩
    intro i
    unfold apply_bpe_with_vocab_filter_line
    rw [List.getElem?_map]
    rfl
  · decide

/-- C5: `word_tokenize` equals the specification's rule — the maximal non-whitespace
runs of the line, left to right (collapse whitespace runs, trim the ends, split at
the separator) — and the binarizer tokenizes its input with this same function. -/
theorem C5_tokenization_rule :
    (∀ l : List Char, word_tokenize l = tokensSpec l) ∧
      ∀ (d : Dictionary) (ae : Bool) (line : List Char) (c : List (List Char)),
        (d.binarize line ae c).1.1 =
          (word_tokenize line).map d.lookup ++ (if ae then [d.eos_idx] else []) :=
  ⟨word_tokenize_eq_tokensSpec, fun _ _ _ _ => rfl⟩

/-- C6: during binarization, a surface form's count in the UNK statistics grows by
exactly the number of its occurrences among the line's tokens that resolve to the
unknown id while differing from the literal unknown symbol; tokens resolving
elsewhere, and literal unknown-symbol occurrences, contribute nothing. -/
theorem C6_unk_statistics (d : Dictionary) (line : List Char) (ae : Bool)
    (c : List (List Char)) (w : List Char) :
    occCount w ((d.binarize line ae c).1.2) =
      occCount w c +
        (word_tokenize line).countP
          (fun t => decide (d.lookup t = d.unk_idx ∧ t ≠ d.unk_word ∧ t = w)) :=
  unkFold_count d w (word_tokenize line) c

/-- C7: a line that is empty after whitespace trimming binarizes to the empty id
sequence plus (when `append_eos` is set) a single eos id, incrementing the sentence
count by exactly one and the token count by zero or one accordingly. -/
theorem C7_empty_line (ae : Bool) (st : BinResult) (line : List Char)
    (h : pyStrip line = []) :
    binStep ae st line =
      { tokens_list := st.tokens_list ++ [if ae then [st.dict.eos_idx] else []]
        nsent := st.nsent + 1
        ntok := st.ntok + (if ae then 1 else 0)
        counter := st.counter
        dict := st.dict } := by
  simp only [binStep, Dictionary.binarize, h]
  have hw : word_tokenize ([] : List Char) = [] := rfl
  rw [hw]
  cases ae <;> simp [unkFold]

theorem C7_empty_line_witness :
    pyStrip [' '] = [] ∧
      binStep true sampleState [' '] =
        { tokens_list := sampleState.tokens_list ++
            [if true then [sampleState.dict.eos_idx] else []]
          nsent := sampleState.nsent + 1
          ntok := sampleState.ntok + (if true then 1 else 0)
          counter := sampleState.counter
          dict := sampleState.dict } :=
  ⟨by decide, C7_empty_line true sampleState [' '] (by decide)⟩

/-- C8: `make_binary_dataset` accumulates exactly one id sequence per input line, in
input order, and the persisted container decodes back to that same ordered sequence
of integer sequences, values and boundaries intact. -/
theorem C8_persist_roundtrip (d : Dictionary) (ae : Bool) (lines : List (List Char)) :
    decodeDataset (encodeDataset (make_binary_dataset d ae lines).tokens_list) =
      some (lines.map (idsOfLine d ae)) := by
  have h := (foldl_binStep_spec ae lines ⟨[], 0, 0, [], d⟩).1
  unfold make_binary_dataset
  rw [h]
  simp only [List.nil_append]
  exact decode_encode _

/-- C9: binarization is deterministic — a second run of `make_binary_dataset` on the
same input, with the dictionary state left behind by the first run, yields the same
output sequences as the first run. -/
theorem C9_deterministic (d : Dictionary) (ae : Bool) (lines : List (List Char)) :
    (make_binary_dataset (make_binary_dataset d ae lines).dict ae lines).tokens_list =
      (make_binary_dataset d ae lines).tokens_list := by
  have hd : (make_binary_dataset d ae lines).dict = d :=
    (foldl_binStep_spec ae lines ⟨[], 0, 0, [], d⟩).2
  rw [hd]

/-- C10: a token with no entry in the loaded frequency table is treated as having
frequency 0: with threshold at least 1 every unrecorded token is replaced by the
sentinel, and with threshold at most 0 every token of the line is kept unchanged. -/
theorem C10_absent_frequency_zero (vocab : List (List Char × Int)) (th : Int)
    (toks : List (List Char)) (hv : ∀ p ∈ vocab, 0 ≤ p.2) :
    (1 ≤ th → ∀ (i : Nat) (w : List Char), toks[i]? = some w →
        hasKey vocab w = false →
        (apply_bpe_with_vocab_filter_line vocab th toks)[i]? = some lowfreqSentinel) ∧
      (th ≤ 0 → apply_bpe_with_vocab_filter_line vocab th toks = toks) := by
  constructor
  · intro hth i w hi hk
    have h0 : dictGet vocab w = 0 := dictGet_of_not_hasKey vocab w hk
    have hf : filterWord vocab th w = lowfreqSentinel := by
      unfold filterWord
      rw [h0, if_neg (by omega : ¬((0 : Int) ≥ th))]
    unfold apply_bpe_with_vocab_filter_line
    rw [List.getElem?_map, hi]
    simp [hf]
  · intro hth
    unfold apply_bpe_with_vocab_filter_line
    have hkeep : ∀ w ∈ toks, filterWord vocab th w = w := by
      intro w _
      unfold filterWord
      rw [if_pos (le_trans hth (dictGet_nonneg vocab hv w))]
    calc toks.map (filterWord vocab th) = toks.map id :=
          List.map_congr_left (by simpa using hkeep)
      _ = toks := List.map_id toks

theorem C10_absent_frequency_zero_witness :
    (apply_bpe_with_vocab_filter_line [(['x'], 5)] 2 [['y']])[0]? =
        some lowfreqSentinel ∧
      apply_bpe_with_vocab_filter_line [(['x'], 5)] (-1) [['x'], ['z']] =
        [['x'], ['z']] :=
  ⟨(C10_absent_frequency_zero [(['x'], 5)] 2 [['y']] (by decide)).1 (by decide) 0 ['y']
      (by decide) (by decide),
   (C10_absent_frequency_zero [(['x'], 5)] (-1) [['x'], ['z']] (by decide)).2 (by decide)⟩

end BPEPre
